import Mathlib

/-!
Shallow embedding of the File-organizer repository
(`src/file_organizer.py`, `src/undo_organizer.py`).

Modelling conventions:
* A filesystem path is a list of name components (`Path := List String`);
  path components, as produced by a real directory walk, contain no `/`
  separator, so joining a directory with a file name appends one component.
  Joining with a string that may contain `/` (category names, strftime
  output such as "2023/05") goes through `pathDiv`, which splits on `/`
  exactly as Python's `pathlib` does.
* The filesystem state is the set (list) of existing file paths and existing
  directory paths.  `Path.exists()` is membership in either list, `is_dir()`
  membership in the directory list.  `shutil.move` on files is modelled as
  POSIX rename: the destination file, if present, is replaced.
* `os.stat` timestamps are modelled by a total oracle `dateOf : Path → Date`;
  the code's `get_file_date` catches every exception and substitutes
  `datetime.now()`, so from the caller's viewpoint it is a total function.
* `datetime.now().isoformat()` (the undo-log timestamp) is never read by any
  code path a claim talks about, so it is modelled as the constant `""`.
* Python string helpers (`str.lower`, `str.strip`, `str.startswith`,
  `str.capitalize`, `%`-unescaping, decimal rendering of an `int`) are
  re-implemented on `List Char`, restricted to the ASCII behaviour the
  program exercises.
-/

namespace FileOrg

abbrev Path := List String

/-- Render a path for messages, as `str(Path)` does on POSIX (components
joined by `/`; the leading-root subtlety is irrelevant to every claim). -/
def pathStr (p : Path) : String := String.intercalate ("/") p

/-! ### Decimal rendering of natural numbers (a Python integer in an f-string) -/

def digitChar (n : Nat) : Char := Char.ofNat (48 + n)

/-- Digits of `n` in base 10, most significant first.  The fuel argument is
only for structural termination; `decDigitsAux (n+1) n` is total decimal
rendering. -/
def decDigitsAux : Nat → Nat → List Char
  | 0, _ => []
  | fuel + 1, n =>
    if n < 10 then [digitChar n]
    else decDigitsAux fuel (n / 10) ++ [digitChar (n % 10)]

/-- Decimal rendering of a natural number, as Python renders an `int`. -/
def natToDec (n : Nat) : String := ⟨decDigitsAux (n + 1) n⟩

/-! ### Python `pathlib` name helpers -/

/-- Python `PurePath.name`: the final path component. -/
def fileName (p : Path) : String := (p.getLast?).getD ("")

/-- Index of the last `'.'` in a list of characters (`str.rfind('.')`),
`none` when there is no dot. -/
def rfindDot (l : List Char) : Option Nat :=
  (l.reverse.findIdx? (fun c => c = '.')).map (fun j => l.length - 1 - j)

/-- Python `PurePath.suffix` of a file name: `name[i:]` for `i = name.rfind('.')`
when `0 < i < len(name) - 1`, else `""`. -/
def nameSuffix (name : String) : String :=
  match rfindDot name.data with
  | some i => if 0 < i ∧ i + 1 < name.data.length then ⟨name.data.drop i⟩ else ""
  | none => ""

/-- Python `PurePath.stem` of a file name: `name[:i]` under the same condition,
else the whole name. -/
def nameStem (name : String) : String :=
  match rfindDot name.data with
  | some i => if 0 < i ∧ i + 1 < name.data.length then ⟨name.data.take i⟩ else name
  | none => name

/-- ASCII `str.lower` (the extensions the program compares are ASCII). -/
def lowerStr (s : String) : String := ⟨s.data.map Char.toLower⟩

/-- Split a string on `/`, dropping empty segments — how `pathlib` turns the
string operand of `/` into path components. -/
def splitSlashAux : List Char → List Char → List String
  | [], cur => if cur.isEmpty then [] else [⟨cur.reverse⟩]
  | '/' :: rest, cur =>
    (if cur.isEmpty then [] else [(⟨cur.reverse⟩ : String)]) ++ splitSlashAux rest []
  | c :: rest, cur => splitSlashAux rest (c :: cur)

def splitSlash (s : String) : List String := splitSlashAux s.data []

/-- Python `pathlib`'s `dir / s` where `s` is a string possibly containing `/`. -/
def pathDiv (p : Path) (s : String) : Path := p ++ splitSlash s

/-! ### Dates and `strftime` -/

/-- A file timestamp, to the precision the organizer's date patterns use. -/
structure Date where
  year : Nat
  month : Nat
  day : Nat

/-- Zero-padded two-digit field (`%m`, `%d`). -/
def pad2 (n : Nat) : String := if n < 10 then "0" ++ natToDec n else natToDec n

/-- Model of `strftime`, restricted to the numeric directives the rules use
(`%Y`, `%m`, `%d`); any other character is copied verbatim. -/
def fmtChars : List Char → Date → List Char
  | [], _ => []
  | '%' :: 'Y' :: rest, d => (natToDec d.year).data ++ fmtChars rest d
  | '%' :: 'm' :: rest, d => (pad2 d.month).data ++ fmtChars rest d
  | '%' :: 'd' :: rest, d => (pad2 d.day).data ++ fmtChars rest d
  | c :: rest, d => c :: fmtChars rest d

def strftime (fmt : String) (d : Date) : String := ⟨fmtChars fmt.data d⟩

/-! ### Filesystem state -/

/-- The filesystem: the existing regular files and the existing directories. -/
structure FS where
  files : List Path
  dirs : List Path

/-- Python `Path.exists()`: the path is an existing file or an existing directory. -/
def pathExists (fs : FS) (p : Path) : Bool :=
  decide (p ∈ fs.files) || decide (p ∈ fs.dirs)

/-- Python `shutil.move` of a regular file (POSIX rename semantics): the source
path is vacated, any file previously at the destination is replaced. -/
def doMove (fs : FS) (src dst : Path) : FS :=
  { fs with files := dst :: fs.files.filter (fun q => !(decide (q = src) || decide (q = dst))) }

/-- All non-empty prefixes of a path, shortest first. -/
def pathPrefixes (d : Path) : List Path :=
  (List.range d.length).map (fun k => d.take (k + 1))

/-- Python `Path.mkdir(parents=True, exist_ok=True)`: create the directory and all
its ancestors; directories that already exist are left alone. -/
def mkdirParents (fs : FS) (d : Path) : FS :=
  { fs with dirs := fs.dirs ++ (pathPrefixes d).filter (fun q => !(decide (q ∈ fs.dirs))) }

/-! ### Configuration and rules -/

/-- The settings `FileOrganizer` reads during a run, with
`get_setting` fallbacks already applied (`handle_duplicates` defaults to
`"rename"`, `create_undo_log` to `"True"`); `destination_folder` is `none`
when the setting is absent (`get_setting` then returns Python `None`). -/
structure Config where
  handle_duplicates : String
  create_undo_log : String
  destination_folder : Option Path

/-- One organization rule, as the JSON rule objects are consumed:
`extensions` is read unconditionally, `subfolder_by_date` via
`rule.get(_, False)`, `date_format` via `rule.get(_, '%Y/%m')`
(`none` = key absent), `subfolders` via `'subfolders' in rule`
(an insertion-ordered table). -/
structure Rule where
  extensions : List String
  subfolder_by_date : Bool
  date_format : Option String
  subfolders : Option (List (String × List String))
  deriving DecidableEq

/-- The loaded rule set: category name to rule, in insertion order. -/
abbrev Rules := List (String × Rule)

/-- Python `dict.get` on the rules mapping: the first binding of the key. -/
def lookupRule (rules : Rules) (cat : String) : Option Rule :=
  (rules.find? (fun cr => cr.1 = cat)).map (·.2)

/-- The rule used when the category has no binding: `self.rules.get` with an empty-dictionary fallback. -/
def emptyRule : Rule := ⟨[], false, none, none⟩

/-! ### Classification (`FileOrganizer.get_file_category`) -/

/-- The scan inside `get_file_category`: first rule whose extension list
contains the (already lower-cased) extension, else the `'Other'` sentinel. -/
def categoryOf : Rules → String → String
  | [], _ => "Other"
  | (c, r) :: rest, ext =>
    if r.extensions.contains ext then c else categoryOf rest ext

/-- The lower-cased extension `Path(file_path).suffix.lower()`. -/
def lowerExt (p : Path) : String := lowerStr (nameSuffix (fileName p))

/-- Model of `FileOrganizer.get_file_category`. -/
def get_file_category (rules : Rules) (p : Path) : String :=
  categoryOf rules (lowerExt p)

/-! ### Sub-bucket resolution (`FileOrganizer.get_subfolder`) -/

/-- First sub-bucket whose extension list contains the extension. -/
def subfolderMatch : List (String × List String) → String → Option String
  | [], _ => none
  | (name, exts) :: rest, ext =>
    if exts.contains ext then some name else subfolderMatch rest ext

/-- First sub-bucket with an empty extension list (the catch-all). -/
def subfolderCatchAll : List (String × List String) → Option String
  | [] => none
  | (name, exts) :: rest =>
    if exts.isEmpty then some name else subfolderCatchAll rest

/-- Model of `FileOrganizer.get_subfolder`. -/
def get_subfolder (p : Path) (subfolders : List (String × List String)) : Option String :=
  match subfolderMatch subfolders (lowerExt p) with
  | some name => some name
  | none => subfolderCatchAll subfolders

/-! ### Destination resolution (`FileOrganizer.generate_destination_path`) -/

/-- Model of `FileOrganizer.generate_destination_path`: destination directory for a
file — base / category, then the optional sub-bucket, then the optional
date segment. -/
def generate_destination_path (rules : Rules) (dateOf : Path → Date)
    (p : Path) (destination_base : Path) : Path :=
  let category := get_file_category rules p
  let rule := (lookupRule rules category).getD emptyRule
  let dest1 := pathDiv destination_base category
  let dest2 :=
    match rule.subfolders with
    | some sf =>
      match get_subfolder p sf with
      | some sub => pathDiv dest1 sub
      | none => dest1
    | none => dest1
  if rule.subfolder_by_date then
    pathDiv dest2 (strftime (rule.date_format.getD ("%Y/%m")) (dateOf p))
  else dest2

/-! ### Duplicate handling (`FileOrganizer.handle_duplicate`) -/

/-- The probe file name: the stem, an underscore, the decimal counter, then the extension. -/
def probeName (stem : String) (counter : Nat) (ext : String) : String :=
  stem ++ "_" ++ natToDec counter ++ ext

/-- The `while destination.exists()` probe loop of the `rename` policy.
The fuel argument only bounds the iteration count for structural
termination; `handle_duplicate` passes fuel exceeding the number of
existing filesystem entries, which is proved sufficient below
(`renameLoop_fuel_free`). -/
def renameLoop (fs : FS) (parent : Path) (stem ext : String) :
    Path → Nat → Nat → Path
  | dest, _, 0 => dest
  | dest, counter, fuel + 1 =>
    if pathExists fs dest then
      renameLoop fs parent stem ext (parent ++ [probeName stem counter ext]) (counter + 1) fuel
    else dest

/-- Model of `FileOrganizer.handle_duplicate`. -/
def handle_duplicate (cfg : Config) (fs : FS) (destination : Path) : Option Path :=
  if cfg.handle_duplicates = "skip" then none
  else if cfg.handle_duplicates = "overwrite" then some destination
  else
    some (renameLoop fs destination.dropLast
      (nameStem (fileName destination)) (nameSuffix (fileName destination))
      destination 1 (fs.files.length + fs.dirs.length + 2))

/-! ### Run state (statistics and the in-memory undo log) -/

/-- The statistics `self.stats` (a `defaultdict(int)`; only these two keys are ever used). -/
structure Stats where
  moved : Nat
  errors : Nat

/-- One undo-log entry as `organize_file` appends it.  The timestamp
(`datetime.now().isoformat()`) is modelled by `""`: no code a claim is about
reads it. -/
structure MoveOp where
  timestamp : String
  source : Path
  destination : Path
  action : String
  deriving DecidableEq

/-- One entry of a *parsed* undo log, as `undo_organization` consumes it:
the dictionary may be missing either key. -/
structure UndoOp where
  source : Option Path
  destination : Option Path

/-- Serializing a log entry and parsing it back
(`save_undo_log` then `json.load`) yields both fields. -/
def MoveOp.toUndo (m : MoveOp) : UndoOp := ⟨some m.source, some m.destination⟩

/-- The mutable state `organize_file` touches: the filesystem, `self.stats`
and `self.undo_log`. -/
structure OrgState where
  fs : FS
  stats : Stats
  undo_log : List MoveOp

/-! ### Moving one file (`FileOrganizer.organize_file`) -/

/-- Model of `FileOrganizer.organize_file`.  Returns the updated state and the
`(success, message)` pair the Python function returns.  The `try/except`
around the filesystem calls is not represented: the modelled operations
cannot fail, and the `except` branch (count an error, report failure) is
exactly the per-file error containment the spec describes separately. -/
def organize_file (cfg : Config) (rules : Rules) (dateOf : Path → Date)
    (st : OrgState) (source : Path) (destination_base : Path) (dry_run : Bool) :
    OrgState × Bool × String :=
  if !(pathExists st.fs source) || decide (source ∈ st.fs.dirs) then
    (st, false, "File does not exist or is a directory: " ++ pathStr source)
  else
    let dest_dir := generate_destination_path rules dateOf source destination_base
    let dest_file0 := dest_dir ++ [fileName source]
    let resolved : Option Path :=
      if pathExists st.fs dest_file0 then handle_duplicate cfg st.fs dest_file0
      else some dest_file0
    match resolved with
    | none => (st, false, "File skipped (duplicate): " ++ fileName source)
    | some dest_file =>
      if dry_run then
        (st, true, "Would move " ++ pathStr source ++ " -> " ++ pathStr dest_file)
      else
        let fs2 := doMove (mkdirParents st.fs dest_dir) source dest_file
        let log' :=
          if cfg.create_undo_log = "True" then
            st.undo_log ++ [⟨"", source, dest_file, "move"⟩]
          else st.undo_log
        ({ fs := fs2
           stats := { st.stats with moved := st.stats.moved + 1 }
           undo_log := log' },
         true, "Moved " ++ fileName source ++ " -> " ++ pathStr dest_file)

/-! ### The folder pass (`FileOrganizer.organize_folder`) -/

/-- A name starting with `.` or `~` (hidden/temp convention). -/
def hiddenName (s : String) : Bool :=
  match s.data with
  | c :: _ => decide (c = '.') || decide (c = '~')
  | [] => false

/-- Whether `base` is a proper ancestor of `p`. -/
def strictUnder (base p : Path) : Bool :=
  decide (base <+: p) && decide (base.length < p.length)

/-- The `os.walk` enumeration of `organize_folder`: every file strictly
under the source folder whose *name* does not start with `.` or `~`
(directories are walked into regardless of their names, matching the code,
which filters only file names). -/
def walkFiles (fs : FS) (root : Path) : List Path :=
  fs.files.filter (fun p => strictUnder root p && !(hiddenName (fileName p)))

/-- The per-file loop of `organize_folder` over the pre-collected file list,
threading the run state and collecting the `(success, message)` outcomes. -/
def processFiles (cfg : Config) (rules : Rules) (dateOf : Path → Date)
    (destination_base : Path) (dry_run : Bool) :
    OrgState → List Path → OrgState × List (Bool × String)
  | st, [] => (st, [])
  | st, f :: rest =>
    let r := organize_file cfg rules dateOf st f destination_base dry_run
    let out := processFiles cfg rules dateOf destination_base dry_run r.1 rest
    (out.1, (r.2.1, r.2.2) :: out.2)

/-- Model of `FileOrganizer.organize_folder`.  The cooperative `self.running` flag is
polled before each file but never written during a run, so it is a constant
of the run: `false` makes the loop break before the first file. -/
def organize_folder (cfg : Config) (rules : Rules) (dateOf : Path → Date)
    (running : Bool) (st : OrgState) (source_folder destination_folder : Path)
    (dry_run : Bool) : OrgState × Bool × (String ⊕ List (Bool × String)) :=
  if !(pathExists st.fs source_folder) then
    (st, false, Sum.inl ("Source folder does not exist: " ++ pathStr source_folder))
  else
    let all_files := walkFiles st.fs source_folder
    let out :=
      if running then processFiles cfg rules dateOf destination_folder dry_run st all_files
      else (st, [])
    (out.1, true, Sum.inr out.2)

/-! ### Empty-directory cleanup (`_cleanup_empty_dirs`, `cleanup_dir_tree`) -/

/-- Whether `any(dir_path.iterdir())` is false: the directory has no immediate
child entry (file or directory). -/
def hasChildEntry (fs : FS) (d : Path) : Bool :=
  (fs.files ++ fs.dirs).any (fun p => decide (p.length = d.length + 1) && decide (d <+: p))

/-- Remove every directory strictly under `base` of exactly length `len`
that is empty.  Emptiness of a directory depends only on entries one level
deeper, so the directories of one level can be filtered simultaneously. -/
def removeEmptyAt (fs : FS) (base : Path) (len : Nat) : FS :=
  { fs with dirs := fs.dirs.filter (fun d =>
      !(strictUnder base d && decide (d.length = len) && !(hasChildEntry fs d))) }

/-- Bottom-up sweep order: `os.walk(base, topdown=False)` yields each directory after its whole
subtree, and a directory is removed (when empty) at the yield of its parent;
hence a directory's removal decision sees the final state of everything
deeper.  This bottom-up post-order is modelled as sweeps over the levels,
deepest first, which makes the same per-directory decisions. -/
def cleanupLevels : FS → Path → Nat → FS
  | fs, _, 0 => fs
  | fs, base, k + 1 => cleanupLevels (removeEmptyAt fs base (base.length + k + 1)) base k

/-- The length of the longest directory path. -/
def maxLen (l : List Path) : Nat := l.foldl (fun a p => max a p.length) 0

/-- Model of `undo_organizer.cleanup_dir_tree` (and the walk inside
`FileOrganizer._cleanup_empty_dirs`): remove the directories under `base`
that are empty, bottom-up, best-effort.  Removal failures are swallowed in
the source (`except: pass`); the model's removals cannot fail. -/
def cleanup_dir_tree (fs : FS) (base : Path) : FS :=
  cleanupLevels fs base (maxLen fs.dirs)

/-- Model of `FileOrganizer._cleanup_empty_dirs`: look up the destination folder
setting (a missing setting makes `Path(None)` raise, which the outer
`except` swallows — modelled by the `none` branch), return early when it
does not exist, else run the bottom-up walk. -/
def cleanup_empty_dirs (cfg : Config) (fs : FS) : FS :=
  match cfg.destination_folder with
  | none => fs
  | some base => if pathExists fs base then cleanup_dir_tree fs base else fs

/-! ### Undo (`FileOrganizer.undo_organization`) -/

/-- The payload `undo_organization` returns: an error string, or the
per-operation results together with the summary line. -/
inductive UndoRet where
  | err (msg : String)
  | ok (results : List (Bool × String)) (summary : String)

/-- The body of the undo loop for one logged operation: validate the entry,
check the file is still at its logged destination, create the original
parent directory and move the file back.  Returns the `(success, message)`
result and the updated filesystem. -/
def undoStep (fs : FS) (op : UndoOp) : (Bool × String) × FS :=
  match op.source, op.destination with
  | some src, some dst =>
    if pathExists fs dst then
      ((true, "Restored " ++ fileName dst ++ " -> " ++ pathStr src),
       doMove (mkdirParents fs src.dropLast) dst src)
    else
      ((false, "File not found in organized location: " ++ fileName dst), fs)
  | _, _ =>
    ((false, "Invalid operation entry: missing source or destination"), fs)

/-- The undo loop over the (already reversed) operation list: filesystem,
result list, `successful_undos`, `failed_undos`. -/
def runUndoOps (fs : FS) : List UndoOp → FS × List (Bool × String) × Nat × Nat
  | [] => (fs, [], 0, 0)
  | op :: rest =>
    let r := undoStep fs op
    let out := runUndoOps r.2 rest
    (out.1, r.1 :: out.2.1,
     (if r.1.1 then out.2.2.1 + 1 else out.2.2.1),
     (if r.1.1 then out.2.2.2 else out.2.2.2 + 1))

/-- Model of `FileOrganizer.undo_organization`.  Its argument `loaded` is the outcome of opening
and `json.load`-ing the log file (`.error` when that raised).  As in
`organize_folder`, the `self.running` flag is a constant of the run. -/
def undo_organization (cfg : Config) (running : Bool) (fs : FS)
    (loaded : Except String (List UndoOp)) : FS × Bool × UndoRet :=
  match loaded with
  | .error e => (fs, false, .err ("Could not load undo log: " ++ e))
  | .ok ops =>
    if ops.isEmpty then (fs, false, .err ("Undo log is empty"))
    else
      let out :=
        if running then runUndoOps fs ops.reverse else (fs, [], 0, 0)
      (cleanup_empty_dirs cfg out.1, true,
       .ok out.2.1
         ("Undo completed: " ++ natToDec out.2.2.1 ++ " restored, "
           ++ natToDec out.2.2.2 ++ " failed"))

/-! ### Rule loading (`FileOrganizerConfig.get_rules`) -/

/-- Python whitespace for `str.strip` (ASCII subset the config exercises). -/
def isPySpace (c : Char) : Bool :=
  decide (c = ' ') || decide (c = '\t') || decide (c = '\n') || decide (c = '\r')

/-- Python `str.strip()`. -/
def pyStrip (s : String) : String :=
  ⟨((s.data.dropWhile isPySpace).reverse.dropWhile isPySpace).reverse⟩

/-- The check `rule_str.strip().startswith('\x7b')`. -/
def startsWithBrace (s : String) : Bool :=
  match (pyStrip s).data with
  | c :: _ => decide (c = Char.ofNat 123)
  | [] => false

/-- Python `str.replace('%%', '%')`. -/
def unescapePct : List Char → List Char
  | '%' :: '%' :: rest => '%' :: unescapePct rest
  | c :: rest => c :: unescapePct rest
  | [] => []

/-- Python `str.capitalize()`: first character upper-cased, the rest lower-cased. -/
def pyCapitalize (s : String) : String :=
  match s.data with
  | [] => ""
  | c :: cs => ⟨Char.toUpper c :: cs.map Char.toLower⟩

/-- Model of `FileOrganizerConfig.get_rules`, over the ordered `[RULES]` section
entries.  `decode` stands for `json.loads` followed by reading the rule
dictionary: it returns `none` exactly when `json.loads` would raise
`JSONDecodeError` (e.g. Python's `json.loads` raises on a value that opens a brace but is not JSON).  An entry
whose stripped value does not start with an opening brace is skipped; for a
brace-starting entry, a `decode` failure propagates out of `get_rules` —
the whole load fails (`.error`). -/
def get_rules (decode : String → Option Rule) :
    List (String × String) → Except String Rules
  | [] => .ok []
  | (cat, s) :: rest =>
    if !(startsWithBrace s) then get_rules decode rest
    else
      match decode ⟨unescapePct s.data⟩ with
      | none => .error ("could not parse rules entry: " ++ cat)
      | some r => (get_rules decode rest).map (fun rs => (pyCapitalize cat, r) :: rs)

/-! ### Derived definitions used by the statements -/

/-- Numeric value of an ASCII digit character. -/
def digitVal (c : Char) : Nat := c.toNat - 48

/-- Value of a most-significant-first digit string. -/
def decVal (l : List Char) : Nat := l.foldl (fun a c => 10 * a + digitVal c) 0

/-- The `n`-th candidate of the `rename` probe for a proposed destination:
the parent directory extended with stem, underscore, `n`, suffix. -/
def probePath (dest : Path) (n : Nat) : Path :=
  dest.dropLast ++ [probeName (nameStem (fileName dest)) n (nameSuffix (fileName dest))]

/-- The built-in rule table of
`FileOrganizerConfig.load_default_config`, transcribed field by field. -/
def defaultRules : Rules :=
  [("Images",
    ⟨[".jpg", ".jpeg", ".png", ".gif", ".bmp", ".tiff", ".svg", ".webp", ".ico", ".heic"],
     true, some ("%Y/%m"), none⟩),
   ("Documents",
    ⟨[".pdf", ".doc", ".docx", ".txt", ".rtf", ".odt", ".pages"],
     false, none,
     some [("PDFs", [".pdf"]),
           ("Word Documents", [".doc", ".docx", ".odt"]),
           ("Text Files", [".txt", ".rtf"]),
           ("Other Documents", [])]⟩),
   ("Office",
    ⟨[".xls", ".xlsx", ".ppt", ".pptx", ".odp", ".ods", ".csv", ".numbers", ".keynote"],
     false, none,
     some [("Spreadsheets", [".xls", ".xlsx", ".ods", ".csv", ".numbers"]),
           ("Presentations", [".ppt", ".pptx", ".odp", ".keynote"])]⟩),
   ("Audio",
    ⟨[".mp3", ".wav", ".flac", ".aac", ".ogg", ".wma", ".m4a"], false, none, none⟩),
   ("Video",
    ⟨[".mp4", ".avi", ".mkv", ".mov", ".wmv", ".flv", ".webm", ".m4v"],
     true, some ("%Y"), none⟩),
   ("Archives",
    ⟨[".zip", ".rar", ".7z", ".tar", ".gz", ".bz2", ".xz"], false, none, none⟩),
   ("Development",
    ⟨[".py", ".js", ".html", ".css", ".java", ".cpp", ".c", ".php", ".rb", ".go", ".rs", ".swift"],
     false, none,
     some [("Python", [".py"]),
           ("Web", [".html", ".css", ".js"]),
           ("Other Code", [])]⟩),
   ("Software",
    ⟨[".exe", ".msi", ".dmg", ".pkg", ".deb", ".rpm", ".appimage"], false, none, none⟩)]

/-- Spec-side data model: the outcome of classifying one file
(category, optional sub-bucket, optional date segment). -/
structure Classification where
  category : String
  subBucket : Option String
  dateSegment : Option String

/-- Spec-side classifier, following the spec's words: the category from the
rule scan; the sub-bucket resolved by the sub-bucket policy when the rule
has a table; the date segment present exactly when the rule's date-grouping
flag is set, the reference timestamp formatted with the rule's pattern. -/
def classifySpec (rules : Rules) (dateOf : Path → Date) (p : Path) : Classification :=
  let cat := get_file_category rules p
  let rule := (lookupRule rules cat).getD emptyRule
  { category := cat
    subBucket :=
      match rule.subfolders with
      | some sf => get_subfolder p sf
      | none => none
    dateSegment :=
      if rule.subfolder_by_date then
        some (strftime (rule.date_format.getD ("%Y/%m")) (dateOf p))
      else none }

/-- Spec-side resolver:
`destinationRoot / category / [subBucket] / [dateSegment]`, components
present only when the corresponding classification field is non-null,
in that fixed order. -/
def resolveSpec (root : Path) (c : Classification) : Path :=
  let p1 := pathDiv root c.category
  let p2 :=
    match c.subBucket with
    | some s => pathDiv p1 s
    | none => p1
  match c.dateSegment with
  | some s => pathDiv p2 s
  | none => p2

/-- The per-operation results carried by an undo return value. -/
def UndoRet.resultsOf : UndoRet → List (Bool × String)
  | .err _ => []
  | .ok rs _ => rs

/-- The summary (or error) line carried by an undo return value. -/
def UndoRet.summaryOf : UndoRet → String
  | .err m => m
  | .ok _ s => s

/-- The destinations of a log, in log order. -/
def logDests (l : List MoveOp) : List Path := l.map (·.destination)

/-- The sources of a log, in log order. -/
def logSources (l : List MoveOp) : List Path := l.map (·.source)

/-- Invariant of the organize pass, relating the state reached so far to the
files still pending: logged destinations are pairwise distinct and all still
present; no logged destination coincides with a later source (`Pairwise`) or
with a pending file; logged sources are pairwise distinct and distinct from
every pending file; the pending files are distinct and still present. -/
def PassInv (pend : List Path) (st : OrgState) : Prop :=
  (logDests st.undo_log).Nodup ∧
  List.Pairwise (fun a b => a.destination ≠ b.source) st.undo_log ∧
  (logSources st.undo_log).Nodup ∧
  (∀ op ∈ st.undo_log, op.destination ∈ st.fs.files) ∧
  (∀ op ∈ st.undo_log, ∀ p ∈ pend, op.destination ≠ p) ∧
  (∀ op ∈ st.undo_log, ∀ p ∈ pend, op.source ≠ p) ∧
  pend.Nodup ∧ (∀ p ∈ pend, p ∈ st.fs.files)

/-- Invariant of an organize pass under the `overwrite` policy restricted
to at most one move: the log is empty, or holds a single operation whose
destination file is still present. -/
def OwInv (st : OrgState) : Prop :=
  st.undo_log = [] ∨ ∃ op, st.undo_log = [op] ∧ op.destination ∈ st.fs.files

/-- A full non-dry-run organize pass with the cancellation flag set
(state after `organize_folder(source, destination)` starting from a fresh
`FileOrganizer` on filesystem `fs0`). -/
def runPass (cfg : Config) (rules : Rules) (dateOf : Path → Date)
    (fs0 : FS) (src dst : Path) : OrgState :=
  (organize_folder cfg rules dateOf true ⟨fs0, ⟨0, 0⟩, []⟩ src dst false).1

/-- Undoing with the undo log produced by the run that reached `st`
(the log serialized by `save_undo_log` and parsed back). -/
def undoRun (cfg : Config) (st : OrgState) : FS × Bool × UndoRet :=
  undo_organization cfg true st.fs (.ok (st.undo_log.map MoveOp.toUndo))

/-! ### Concrete instances used by witnesses and counterexamples -/

def cfgRen : Config := ⟨"rename", "True", some ["d"]⟩
def cfgSkip : Config := ⟨"skip", "True", some ["d"]⟩
def cfgOver : Config := ⟨"overwrite", "True", some ["d"]⟩

def dateW : Path → Date := fun _ => ⟨2023, 5, 10⟩

def rulesImg : Rules := [("Images", ⟨[".jpg"], false, none, none⟩)]
def rulesAudio : Rules := [("Audio", ⟨[".mp3"], false, none, none⟩)]

def fsTwoJpg : FS :=
  ⟨[["s", "x", "photo.jpg"], ["s", "y", "photo.jpg"]],
   [["s"], ["s", "x"], ["s", "y"], ["d"]]⟩

def fsTwoMp3 : FS :=
  ⟨[["s", "x", "a.mp3"], ["s", "y", "a.mp3"]],
   [["s"], ["s", "x"], ["s", "y"], ["d"]]⟩

def fsOneMp3 : FS := ⟨[["s", "a.mp3"]], [["s"], ["d"]]⟩

def fsSkipW : FS :=
  ⟨[["s", "a.mp3"], ["d", "Audio", "a.mp3"]], [["s"], ["d"], ["d", "Audio"]]⟩

/-- A `json.loads` model that fails on every input (used where only the
failing entry matters; Python's `json.loads` raises on such input). -/
def decodeNone : String → Option Rule := fun _ => none

/-- A `json.loads` model defined on the one rule string a witness uses. -/
def decodeOne : String → Option Rule :=
  fun s => if s = "\x7bmp3\x7d" then some ⟨[".mp3"], false, none, none⟩ else none

/-! ## Decimal rendering is injective -/

theorem digitVal_digitChar (m : Nat) (h : m < 10) : digitVal (digitChar m) = m := by
  interval_cases m <;> rfl

theorem decVal_append_digit (l : List Char) (c : Char) :
    decVal (l ++ [c]) = 10 * decVal l + digitVal c := by
  simp [decVal, List.foldl_append]

theorem decVal_decDigitsAux : ∀ fuel n : Nat, n < fuel → decVal (decDigitsAux fuel n) = n := by
  intro fuel
  induction fuel with
  | zero => intro n h; exact absurd h (Nat.not_lt_zero n)
  | succ f ih =>
    intro n h
    by_cases h10 : n < 10
    · simp [decDigitsAux, if_pos h10, decVal, digitVal_digitChar n h10]
    · simp only [decDigitsAux, if_neg h10]
      rw [decVal_append_digit]
      have hd : n / 10 < f := by
        have h2 : n / 10 < n := Nat.div_lt_self (by omega) (by omega)
        omega
      rw [ih _ hd, digitVal_digitChar _ (Nat.mod_lt n (by omega))]
      omega

theorem natToDec_injective : Function.Injective natToDec := by
  intro a b h
  have hd : decDigitsAux (a + 1) a = decDigitsAux (b + 1) b := congrArg String.data h
  have ha := decVal_decDigitsAux (a + 1) a (Nat.lt_succ_self a)
  have hb := decVal_decDigitsAux (b + 1) b (Nat.lt_succ_self b)
  rw [← ha, ← hb, hd]

theorem probeName_injective (s e : String) :
    Function.Injective (fun n => probeName s n e) := by
  intro a b h
  simp only [probeName] at h
  have h2 := congrArg String.data h
  simp only [String.data_append] at h2
  have h3 := List.append_cancel_right h2
  have h4 := List.append_cancel_left h3
  exact natToDec_injective (String.ext h4)

/-! ## The rename probe loop -/

theorem renameLoop_not_exists (fs : FS) (parent : Path) (s e : String)
    (dest : Path) (h : pathExists fs dest = false) :
    ∀ c f, renameLoop fs parent s e dest c f = dest := by
  intro c f
  cases f with
  | zero => rfl
  | succ g => simp [renameLoop, h]

theorem renameLoop_finds (fs : FS) (parent : Path) (s e : String) :
    ∀ (f c : Nat) (dest : Path), pathExists fs dest = true →
      (∃ j, j + 1 < f ∧ pathExists fs (parent ++ [probeName s (c + j) e]) = false) →
      ∃ n, c ≤ n ∧ pathExists fs (parent ++ [probeName s n e]) = false ∧
        (∀ k, c ≤ k → k < n → pathExists fs (parent ++ [probeName s k e]) = true) ∧
        renameLoop fs parent s e dest c f = parent ++ [probeName s n e] := by
  intro f
  induction f with
  | zero => intro c dest _ hfree; obtain ⟨j, hj, _⟩ := hfree; omega
  | succ f ih =>
    intro c dest hex hfree
    have hstep : renameLoop fs parent s e dest c (f + 1)
        = renameLoop fs parent s e (parent ++ [probeName s c e]) (c + 1) f := by
      simp [renameLoop, hex]
    by_cases hc : pathExists fs (parent ++ [probeName s c e]) = true
    · obtain ⟨j, hj, hfj⟩ := hfree
      have hj0 : j ≠ 0 := by
        rintro rfl
        rw [Nat.add_zero] at hfj
        simp [hfj] at hc
      obtain ⟨j', rfl⟩ : ∃ j', j = j' + 1 := ⟨j - 1, by omega⟩
      have hshift : pathExists fs (parent ++ [probeName s (c + 1 + j') e]) = false := by
        have hco : c + 1 + j' = c + (j' + 1) := by omega
        rw [hco]; exact hfj
      obtain ⟨n, hn1, hn2, hn3, hn4⟩ :=
        ih (c + 1) (parent ++ [probeName s c e]) hc ⟨j', by omega, hshift⟩
      refine ⟨n, by omega, hn2, ?_, by rw [hstep]; exact hn4⟩
      intro k hk1 hk2
      rcases Nat.eq_or_lt_of_le hk1 with h | h
      · rw [← h]; exact hc
      · exact hn3 k h hk2
    · have hcf : pathExists fs (parent ++ [probeName s c e]) = false := by
        revert hc; cases pathExists fs (parent ++ [probeName s c e]) <;> simp
      refine ⟨c, Nat.le_refl c, hcf, ?_, ?_⟩
      · intro k hk1 hk2; omega
      · rw [hstep]
        exact renameLoop_not_exists fs parent s e _ hcf (c + 1) f

/-! ## Pigeonhole: the probe always finds a free name within the fuel -/

theorem exists_free_probe (fs : FS) (parent : Path) (s e : String) :
    ∃ j, j + 1 < fs.files.length + fs.dirs.length + 2 ∧
      pathExists fs (parent ++ [probeName s (1 + j) e]) = false := by
  by_contra hall
  push_neg at hall
  have hmem : ∀ j < fs.files.length + fs.dirs.length + 1,
      (parent ++ [probeName s (1 + j) e]) ∈ fs.files ++ fs.dirs := by
    intro j hj
    have h1 : pathExists fs (parent ++ [probeName s (1 + j) e]) = true := by
      have h2 := hall j (by omega)
      revert h2; cases pathExists fs (parent ++ [probeName s (1 + j) e]) <;> simp
    simp only [pathExists, Bool.or_eq_true, decide_eq_true_eq] at h1
    exact List.mem_append.mpr h1
  have hnodup : ((List.range (fs.files.length + fs.dirs.length + 1)).map
      (fun j => parent ++ [probeName s (1 + j) e])).Nodup := by
    refine List.Nodup.map ?_ (List.nodup_range _)
    intro a b hab
    have h3 := List.append_cancel_left hab
    simp only [List.cons.injEq, and_true] at h3
    have h4 := probeName_injective s e h3
    omega
  have hsub : ((List.range (fs.files.length + fs.dirs.length + 1)).map
      (fun j => parent ++ [probeName s (1 + j) e])).toFinset ⊆
      (fs.files ++ fs.dirs).toFinset := by
    intro x hx
    rw [List.mem_toFinset] at hx ⊢
    simp only [List.mem_map, List.mem_range] at hx
    obtain ⟨j, hj, rfl⟩ := hx
    exact hmem j hj
  have hcard1 := List.toFinset_card_of_nodup hnodup
  have hcard2 := Finset.card_le_card hsub
  have hcard3 := List.toFinset_card_le (l := fs.files ++ fs.dirs)
  rw [hcard1] at hcard2
  simp only [List.length_map, List.length_range] at hcard2
  simp only [List.length_append] at hcard3
  omega

/-! ## Characterizing `handle_duplicate` -/

theorem handle_duplicate_skip (cfg : Config) (fs : FS) (d : Path)
    (h : cfg.handle_duplicates = "skip") : handle_duplicate cfg fs d = none := by
  simp [handle_duplicate, h]

theorem handle_duplicate_overwrite (cfg : Config) (fs : FS) (d : Path)
    (h : cfg.handle_duplicates = "overwrite") : handle_duplicate cfg fs d = some d := by
  simp [handle_duplicate, h]

theorem handle_duplicate_rename_exists (cfg : Config) (fs : FS) (destination : Path)
    (h : cfg.handle_duplicates = "rename") (hex : pathExists fs destination = true) :
    ∃ n, 1 ≤ n ∧
      handle_duplicate cfg fs destination = some (probePath destination n) ∧
      pathExists fs (probePath destination n) = false ∧
      ∀ k, 1 ≤ k → k < n → pathExists fs (probePath destination k) = true := by
  have hfree := exists_free_probe fs destination.dropLast
    (nameStem (fileName destination)) (nameSuffix (fileName destination))
  obtain ⟨n, hn1, hn2, hn3, hn4⟩ := renameLoop_finds fs destination.dropLast
    (nameStem (fileName destination)) (nameSuffix (fileName destination))
    (fs.files.length + fs.dirs.length + 2) 1 destination hex hfree
  refine ⟨n, hn1, ?_, hn2, hn3⟩
  simp only [handle_duplicate, h, probePath]
  rw [hn4]
  simp

theorem handle_duplicate_rename_fresh (cfg : Config) (fs : FS) (destination : Path)
    (h : cfg.handle_duplicates = "rename") :
    ∃ r, handle_duplicate cfg fs destination = some r ∧ pathExists fs r = false := by
  by_cases hex : pathExists fs destination = true
  · obtain ⟨n, _, h2, h3, _⟩ := handle_duplicate_rename_exists cfg fs destination h hex
    exact ⟨_, h2, h3⟩
  · have hex' : pathExists fs destination = false := by
      revert hex; cases pathExists fs destination <;> simp
    refine ⟨destination, ?_, hex'⟩
    simp only [handle_duplicate, h]
    rw [renameLoop_not_exists fs destination.dropLast
      (nameStem (fileName destination)) (nameSuffix (fileName destination)) destination hex' 1
      (fs.files.length + fs.dirs.length + 2)]
    simp

/-! ## Classification -/

theorem categoryOf_eq_find (rules : Rules) (ext : String) :
    categoryOf rules ext =
      (match rules.find? (fun cr => cr.2.extensions.contains ext) with
       | some cr => cr.1
       | none => "Other") := by
  induction rules with
  | nil => rfl
  | cons hd tl ih =>
    obtain ⟨c, r⟩ := hd
    by_cases h : ext ∈ r.extensions
    · rw [List.find?_cons_of_pos _ (by simpa using h)]
      simp [categoryOf, h]
    · rw [List.find?_cons_of_neg _ (by simpa using h)]
      simp [categoryOf, h, ih]

/-- C2.  Classification is a total function of the loaded rule set and the
lower-cased extension: it returns the name of the *first* rule (in rule
iteration order) whose extension list contains the lower-cased extension,
and the sentinel `"Other"` when no rule matches; consequently two paths
with the same lower-cased extension (case variants) classify identically,
and a matching earlier rule always beats any later rule. -/
theorem claim_C2 :
    (∀ (rules : Rules) (p : Path),
      get_file_category rules p =
        (match rules.find? (fun cr => cr.2.extensions.contains (lowerExt p)) with
         | some cr => cr.1
         | none => "Other")) ∧
    (∀ (rules : Rules) (p q : Path), lowerExt p = lowerExt q →
      get_file_category rules p = get_file_category rules q) ∧
    (∀ (c : String) (r : Rule) (rest : Rules) (p : Path),
      r.extensions.contains (lowerExt p) = true →
      get_file_category ((c, r) :: rest) p = c) := by
  refine ⟨?_, ?_, ?_⟩
  · intro rules p
    exact categoryOf_eq_find rules (lowerExt p)
  · intro rules p q h
    simp [get_file_category, h]
  · intro c r rest p h
    have hm : lowerExt p ∈ r.extensions := by simpa using h
    simp [get_file_category, categoryOf, hm]

/-- Witness for C2: `.JPG` and `.jpg` classify identically under the
default rules (both as `Images`). -/
theorem claim_C2_witness :
    lowerExt ["s", "x.JPG"] = lowerExt ["s", "x.jpg"] ∧
    get_file_category defaultRules ["s", "x.JPG"]
      = get_file_category defaultRules ["s", "x.jpg"] :=
  ⟨by decide, claim_C2.2.1 defaultRules ["s", "x.JPG"] ["s", "x.jpg"] (by decide)⟩

/-! ## Destination resolution -/

/-- C3.  The resolved destination directory is
`destinationRoot / category / [subBucket] / [dateSegment]` in that fixed
order, with the sub-bucket present only when the rule has a table (resolved
by first-extension-match, else first-empty catch-all, else absent) and the
date segment present only when the rule's date-grouping flag is set,
formatted from the file's timestamp with the rule's pattern; under the
default rules a `.jpg` dated 2023-05-10 resolves to `D/Images/2023/05`
and a `.pdf` to `D/Documents/PDFs`. -/
theorem claim_C3 :
    (∀ (rules : Rules) (dateOf : Path → Date) (p root : Path),
      generate_destination_path rules dateOf p root
        = resolveSpec root (classifySpec rules dateOf p)) ∧
    generate_destination_path defaultRules dateW ["S", "a.jpg"] ["D"]
      = ["D", "Images", "2023", "05"] ∧
    generate_destination_path defaultRules dateW ["S", "b.pdf"] ["D"]
      = ["D", "Documents", "PDFs"] := by
  refine ⟨?_, by decide, by decide⟩
  intro rules dateOf p root
  simp only [generate_destination_path, resolveSpec, classifySpec]
  generalize (lookupRule rules (get_file_category rules p)).getD emptyRule = rule
  cases hsf : rule.subfolders with
  | none => cases hb : rule.subfolder_by_date <;> simp [hb]
  | some sf =>
    cases hgs : get_subfolder p sf <;> cases hb : rule.subfolder_by_date <;> simp [hgs, hb]

/-! ## The skip policy leaves everything untouched -/

/-- C5.  Under the `skip` policy, a file whose proposed destination already
exists is left in place: the state (filesystem, statistics, undo log) is
returned unchanged and the outcome is the distinct non-moved, non-error
report `File skipped (duplicate): <name>`. -/
theorem claim_C5 (cfg : Config) (rules : Rules) (dateOf : Path → Date)
    (st : OrgState) (source destination_base : Path)
    (hpol : cfg.handle_duplicates = "skip")
    (hsrc : pathExists st.fs source = true)
    (hdir : source ∉ st.fs.dirs)
    (hdup : pathExists st.fs
      (generate_destination_path rules dateOf source destination_base
        ++ [fileName source]) = true) :
    organize_file cfg rules dateOf st source destination_base false =
      (st, false, "File skipped (duplicate): " ++ fileName source) := by
  simp only [organize_file, hsrc, hdup, hdir, Bool.not_true, decide_eq_true_eq,
    Bool.false_or, if_true, if_false]
  simp [hdir, handle_duplicate_skip cfg st.fs _ hpol]

/-- Witness for C5 at a concrete state: `s/a.mp3` collides with the
already-present `d/Audio/a.mp3` and the state is returned unchanged. -/
theorem claim_C5_witness :
    cfgSkip.handle_duplicates = "skip" ∧
    organize_file cfgSkip rulesAudio dateW ⟨fsSkipW, ⟨0, 0⟩, []⟩ ["s", "a.mp3"] ["d"] false =
      (⟨fsSkipW, ⟨0, 0⟩, []⟩, false, "File skipped (duplicate): " ++ fileName ["s", "a.mp3"]) :=
  ⟨rfl, claim_C5 cfgSkip rulesAudio dateW ⟨fsSkipW, ⟨0, 0⟩, []⟩ ["s", "a.mp3"] ["d"]
    rfl (by decide) (by decide) (by decide)⟩

/-! ## Dry run mutates nothing -/

theorem organize_file_dry_run (cfg : Config) (rules : Rules) (dateOf : Path → Date)
    (st : OrgState) (f base : Path) :
    (organize_file cfg rules dateOf st f base true).1 = st := by
  simp only [organize_file]
  split
  · rfl
  · split <;> simp

theorem processFiles_dry_run (cfg : Config) (rules : Rules) (dateOf : Path → Date)
    (base : Path) :
    ∀ (files : List Path) (st : OrgState),
      (processFiles cfg rules dateOf base true st files).1 = st ∧
      (processFiles cfg rules dateOf base true st files).2.length = files.length := by
  intro files
  induction files with
  | nil => intro st; exact ⟨rfl, rfl⟩
  | cons f rest ih =>
    intro st
    simp only [processFiles]
    constructor
    · rw [(ih _).1, organize_file_dry_run]
    · simp [(ih _).2]

/-- C6.  A dry-run pass performs no filesystem mutation and appends nothing
to the undo log — the whole run state is returned unchanged — while, when
the source folder exists (and the running flag is set), it still reports
one would-be outcome per enumerated file. -/
theorem claim_C6 (cfg : Config) (rules : Rules) (dateOf : Path → Date)
    (st : OrgState) (src dst : Path) :
    (organize_folder cfg rules dateOf true st src dst true).1 = st ∧
    (pathExists st.fs src = true →
      (organize_folder cfg rules dateOf true st src dst true).2.2 =
        Sum.inr (processFiles cfg rules dateOf dst true st (walkFiles st.fs src)).2 ∧
      (processFiles cfg rules dateOf dst true st (walkFiles st.fs src)).2.length =
        (walkFiles st.fs src).length) := by
  constructor
  · simp only [organize_folder]
    split
    · rfl
    · simp [(processFiles_dry_run cfg rules dateOf dst (walkFiles st.fs src) st).1]
  · intro h
    refine ⟨?_, (processFiles_dry_run cfg rules dateOf dst (walkFiles st.fs src) st).2⟩
    simp [organize_folder, h]

/-- Witness for C6: a dry run over the two-file tree changes nothing and
reports two outcomes. -/
theorem claim_C6_witness :
    pathExists fsTwoMp3 ["s"] = true ∧
    (organize_folder cfgRen rulesAudio dateW true ⟨fsTwoMp3, ⟨0, 0⟩, []⟩ ["s"] ["d"] true).1
      = ⟨fsTwoMp3, ⟨0, 0⟩, []⟩ ∧
    (processFiles cfgRen rulesAudio dateW ["d"] true ⟨fsTwoMp3, ⟨0, 0⟩, []⟩
        (walkFiles fsTwoMp3 ["s"])).2.length
      = (walkFiles fsTwoMp3 ["s"]).length :=
  ⟨by decide,
   (claim_C6 cfgRen rulesAudio dateW ⟨fsTwoMp3, ⟨0, 0⟩, []⟩ ["s"] ["d"]).1,
   ((claim_C6 cfgRen rulesAudio dateW ⟨fsTwoMp3, ⟨0, 0⟩, []⟩ ["s"] ["d"]).2 (by decide)).2⟩

/-! ## Rule loading -/

theorem get_rules_ok (decode : String → Option Rule) :
    ∀ entries : List (String × String),
      (∀ e ∈ entries, startsWithBrace e.2 = true → decode ⟨unescapePct e.2.data⟩ ≠ none) →
      get_rules decode entries =
        .ok (entries.filterMap (fun e =>
          if startsWithBrace e.2 then
            (decode ⟨unescapePct e.2.data⟩).map (fun r => (pyCapitalize e.1, r))
          else none)) := by
  intro entries
  induction entries with
  | nil => intro _; rfl
  | cons e rest ih =>
    intro h
    obtain ⟨cat, s⟩ := e
    have hrest := ih (fun x hx => h x (List.mem_cons_of_mem _ hx))
    by_cases hb : startsWithBrace s = true
    · cases hd : decode ⟨unescapePct s.data⟩ with
      | none => exact absurd hd (h (cat, s) (List.mem_cons_self _ _) hb)
      | some r =>
        simp [get_rules, hb, hd, hrest, List.filterMap_cons, Except.map]
    · have hb' : startsWithBrace s = false := by
        revert hb; cases startsWithBrace s <;> simp
      simp [get_rules, hb', hrest, List.filterMap_cons]

/-- C7 (amended).  Rule loading over the persisted `[RULES]` section:
entries whose stripped value does not start with an opening brace are skipped without
failing the load; when every brace-starting entry parses, the load
succeeds with exactly the parsed rules (capitalized keys, in order); the
empty section is a valid load producing the empty rule set, under which
every file classifies as `"Other"`.  (A brace-starting entry that fails
JSON parsing aborts the whole load — see the counterexample.) -/
theorem claim_C7 :
    (∀ (decode : String → Option Rule) (entries : List (String × String)),
      (∀ e ∈ entries, startsWithBrace e.2 = true → decode ⟨unescapePct e.2.data⟩ ≠ none) →
      get_rules decode entries =
        .ok (entries.filterMap (fun e =>
          if startsWithBrace e.2 then
            (decode ⟨unescapePct e.2.data⟩).map (fun r => (pyCapitalize e.1, r))
          else none))) ∧
    (∀ decode : String → Option Rule, get_rules decode [] = .ok []) ∧
    (∀ p : Path, get_file_category [] p = "Other") := by
  exact ⟨get_rules_ok, fun _ => rfl, fun _ => rfl⟩

/-- C7 counterexample to the claim as stated: an *unparsable* rule entry is
not always skipped — an entry whose value starts with an opening brace but fails JSON
parsing (Python's `json.loads` raises on it) makes the whole load fail
instead of being skipped. -/
theorem claim_C7_cex :
    get_rules decodeNone [("docs", "\x7bbad")]
      = .error ("could not parse rules entry: docs") := by rfl

/-- Witness for C7: a section with one good rule entry and one non-JSON
value (a `DEFAULT`-section bleed-through) loads successfully, skipping the
latter and capitalizing the former's key. -/
theorem claim_C7_witness :
    (∀ e ∈ [("audio", "\x7bmp3\x7d"), ("source_folders", "xyz")],
      startsWithBrace e.2 = true → decodeOne ⟨unescapePct e.2.data⟩ ≠ none) ∧
    get_rules decodeOne [("audio", "\x7bmp3\x7d"), ("source_folders", "xyz")] =
      .ok ([("audio", "\x7bmp3\x7d"), ("source_folders", "xyz")].filterMap (fun e =>
        if startsWithBrace e.2 then
          (decodeOne ⟨unescapePct e.2.data⟩).map (fun r => (pyCapitalize e.1, r))
        else none)) :=
  ⟨by decide,
   claim_C7.1 decodeOne [("audio", "\x7bmp3\x7d"), ("source_folders", "xyz")] (by decide)⟩

/-! ## Undo always reports overall success once the log is loaded -/

/-- C10.  For every successfully parsed non-empty undo log the undo
operation returns the overall flag `True` — whatever the individual
operations do (the per-operation failures are only reflected in the
results and the summary) — while a load failure or an empty log returns
`False`: the top-level flag only signals that the log was loaded and
processed. -/
theorem claim_C10 (cfg : Config) (running : Bool) (fs : FS) (ops : List UndoOp)
    (hne : ops ≠ []) :
    (undo_organization cfg running fs (.ok ops)).2.1 = true ∧
    (∀ e : String, (undo_organization cfg running fs (.error e)).2.1 = false) ∧
    (undo_organization cfg running fs (.ok [])).2.1 = false := by
  refine ⟨?_, fun e => rfl, rfl⟩
  cases ops with
  | nil => exact absurd rfl hne
  | cons a l => rfl

/-- Witness for C10: a one-entry log whose only operation is malformed
(both fields missing, hence it fails) still yields the overall flag
`True`. -/
theorem claim_C10_witness :
    ((⟨none, none⟩ : UndoOp) :: [] ≠ []) ∧
    (undo_organization cfgRen true ⟨[], []⟩ (.ok [⟨none, none⟩])).2.1 = true :=
  ⟨List.cons_ne_nil _ _,
   (claim_C10 cfgRen true ⟨[], []⟩ [⟨none, none⟩] (List.cons_ne_nil _ _)).1⟩

/-! ## The undo loop: every operation is processed and counted -/

theorem runUndoOps_length : ∀ (u : List UndoOp) (fs : FS),
    (runUndoOps fs u).2.1.length = u.length := by
  intro u
  induction u with
  | nil => intro fs; rfl
  | cons op rest ih =>
    intro fs
    simp [runUndoOps, ih]

theorem runUndoOps_counts : ∀ (u : List UndoOp) (fs : FS),
    (runUndoOps fs u).2.2.1 = (runUndoOps fs u).2.1.countP (fun r => r.1) ∧
    (runUndoOps fs u).2.2.2 = (runUndoOps fs u).2.1.countP (fun r => !r.1) := by
  intro u
  induction u with
  | nil => intro fs; exact ⟨rfl, rfl⟩
  | cons op rest ih =>
    intro fs
    obtain ⟨ih1, ih2⟩ := ih (undoStep fs op).2
    cases hr : (undoStep fs op).1.1 <;>
      simp [runUndoOps, List.countP_cons, hr, ih1, ih2]

theorem runUndoOps_malformed : ∀ (u : List UndoOp) (fs : FS),
    List.Forall₂ (fun (op : UndoOp) (r : Bool × String) =>
      (op.source = none ∨ op.destination = none) →
        r = (false, "Invalid operation entry: missing source or destination"))
      u (runUndoOps fs u).2.1 := by
  intro u
  induction u with
  | nil => intro fs; exact List.Forall₂.nil
  | cons op rest ih =>
    intro fs
    refine List.Forall₂.cons ?_ (ih _)
    intro h
    rcases hs : op.source with _ | src <;> rcases hd : op.destination with _ | dst
    · simp [undoStep, hs, hd]
    · simp [undoStep, hs, hd]
    · simp [undoStep, hs, hd]
    · rw [hs, hd] at h
      rcases h with h | h <;> cases h

/-- C8.  During undo of a loaded non-empty log every per-operation failure
is recorded and counted and never stops the batch: there is exactly one
result per logged operation; the summary is
`Undo completed: <N> restored, <M> failed` where `N`/`M` count the
successful/failed results; an operation with a missing `source` or
`destination` field yields the malformed-entry failure result; and a
one-entry log whose destination file no longer exists yields exactly one
failure, zero successes, and the summary `0 restored, 1 failed` with
overall flag `True`. -/
theorem claim_C8 (cfg : Config) (fs : FS) (ops : List UndoOp) (hne : ops ≠ []) :
    ((undo_organization cfg true fs (.ok ops)).2.2.resultsOf.length = ops.length) ∧
    ((undo_organization cfg true fs (.ok ops)).2.2.summaryOf =
      "Undo completed: "
        ++ natToDec ((undo_organization cfg true fs (.ok ops)).2.2.resultsOf.countP (fun r => r.1))
        ++ " restored, "
        ++ natToDec ((undo_organization cfg true fs (.ok ops)).2.2.resultsOf.countP (fun r => !r.1))
        ++ " failed") ∧
    (List.Forall₂ (fun (op : UndoOp) (r : Bool × String) =>
      (op.source = none ∨ op.destination = none) →
        r = (false, "Invalid operation entry: missing source or destination"))
      ops.reverse (undo_organization cfg true fs (.ok ops)).2.2.resultsOf) ∧
    (∀ (fs' : FS) (s d : Path), pathExists fs' d = false →
      undo_organization cfg true fs' (.ok [⟨some s, some d⟩]) =
        (cleanup_empty_dirs cfg fs', true,
         .ok [(false, "File not found in organized location: " ++ fileName d)]
           ("Undo completed: 0 restored, 1 failed"))) := by
  have hemp : ops.isEmpty = false := by
    cases ops with
    | nil => exact absurd rfl hne
    | cons a l => rfl
  have hres : (undo_organization cfg true fs (.ok ops)).2.2.resultsOf
      = (runUndoOps fs ops.reverse).2.1 := by
    simp [undo_organization, hemp, UndoRet.resultsOf]
  refine ⟨?_, ?_, ?_, ?_⟩
  · rw [hres, runUndoOps_length, List.length_reverse]
  · rw [hres]
    have hsum : (undo_organization cfg true fs (.ok ops)).2.2.summaryOf =
        "Undo completed: " ++ natToDec (runUndoOps fs ops.reverse).2.2.1
          ++ " restored, " ++ natToDec (runUndoOps fs ops.reverse).2.2.2 ++ " failed" := by
      simp [undo_organization, hemp, UndoRet.summaryOf]
    rw [hsum, (runUndoOps_counts ops.reverse fs).1, (runUndoOps_counts ops.reverse fs).2]
  · rw [hres]
    exact runUndoOps_malformed ops.reverse fs
  · intro fs' s d hd
    have h0 : natToDec 0 = "0" := by decide
    have h1 : natToDec 1 = "1" := by decide
    simp [undo_organization, runUndoOps, undoStep, hd, h0, h1]

/-- Witness for C8 at a concrete state: an empty filesystem and a one-entry
log whose destination is gone. -/
theorem claim_C8_witness :
    ((⟨some ["s", "a.txt"], some ["d", "a.txt"]⟩ : UndoOp) :: [] ≠ []) ∧
    (undo_organization cfgRen true ⟨[], []⟩
        (.ok [⟨some ["s", "a.txt"], some ["d", "a.txt"]⟩])).2.2.resultsOf.length = 1 ∧
    pathExists (⟨[], []⟩ : FS) ["d", "a.txt"] = false ∧
    undo_organization cfgRen true (⟨[], []⟩ : FS)
        (.ok [⟨some ["s", "a.txt"], some ["d", "a.txt"]⟩]) =
      (cleanup_empty_dirs cfgRen ⟨[], []⟩, true,
       .ok [(false, "File not found in organized location: " ++ fileName ["d", "a.txt"])]
         ("Undo completed: 0 restored, 1 failed")) :=
  ⟨List.cons_ne_nil _ _,
   (claim_C8 cfgRen ⟨[], []⟩ [⟨some ["s", "a.txt"], some ["d", "a.txt"]⟩]
      (List.cons_ne_nil _ _)).1,
   by decide,
   (claim_C8 cfgRen ⟨[], []⟩ [⟨some ["s", "a.txt"], some ["d", "a.txt"]⟩]
      (List.cons_ne_nil _ _)).2.2.2 ⟨[], []⟩ ["s", "a.txt"] ["d", "a.txt"] (by decide)⟩

/-! ## The rename policy -/

/-- C4.  Under the `rename` policy the final destination is found by probing
`name_1.ext`, `name_2.ext`, … with an incrementing counter: the proposed
path itself is returned when free, otherwise the first non-existing probe
path (all earlier probes exist); moving two files that both resolve to
`photo.jpg` in one destination directory yields `photo.jpg` and
`photo_1.jpg`, both present. -/
theorem claim_C4 (cfg : Config) (fs : FS) (dest : Path)
    (hpol : cfg.handle_duplicates = "rename") :
    (pathExists fs dest = false → handle_duplicate cfg fs dest = some dest) ∧
    (pathExists fs dest = true →
      ∃ n, 1 ≤ n ∧ handle_duplicate cfg fs dest = some (probePath dest n) ∧
        pathExists fs (probePath dest n) = false ∧
        (∀ k, 1 ≤ k → k < n → pathExists fs (probePath dest k) = true)) ∧
    (["d", "Images", "photo.jpg"] ∈ (processFiles cfgRen rulesImg dateW ["d"] false
        ⟨fsTwoJpg, ⟨0, 0⟩, []⟩ (walkFiles fsTwoJpg ["s"])).1.fs.files ∧
      ["d", "Images", "photo_1.jpg"] ∈ (processFiles cfgRen rulesImg dateW ["d"] false
        ⟨fsTwoJpg, ⟨0, 0⟩, []⟩ (walkFiles fsTwoJpg ["s"])).1.fs.files ∧
      probePath ["d", "Images", "photo.jpg"] 1 = ["d", "Images", "photo_1.jpg"]) := by
  refine ⟨?_, ?_, by decide, by decide, by decide⟩
  · intro h
    simp only [handle_duplicate, hpol]
    rw [renameLoop_not_exists fs dest.dropLast
      (nameStem (fileName dest)) (nameSuffix (fileName dest)) dest h 1
      (fs.files.length + fs.dirs.length + 2)]
    simp
  · intro h
    exact handle_duplicate_rename_exists cfg fs dest hpol h

/-- Witness for C4: a concrete collision at `d/Audio/a.mp3`. -/
theorem claim_C4_witness :
    cfgRen.handle_duplicates = "rename" ∧
    pathExists fsSkipW ["d", "Audio", "a.mp3"] = true ∧
    (∃ n, 1 ≤ n ∧
      handle_duplicate cfgRen fsSkipW ["d", "Audio", "a.mp3"]
        = some (probePath ["d", "Audio", "a.mp3"] n) ∧
      pathExists fsSkipW (probePath ["d", "Audio", "a.mp3"] n) = false ∧
      (∀ k, 1 ≤ k → k < n →
        pathExists fsSkipW (probePath ["d", "Audio", "a.mp3"] k) = true)) :=
  ⟨rfl, by decide,
   (claim_C4 cfgRen fsSkipW ["d", "Audio", "a.mp3"] rfl).2.1 (by decide)⟩

/-! ## Cleanup: structural lemmas -/

theorem cleanupLevels_files : ∀ (k : Nat) (fs : FS) (base : Path),
    (cleanupLevels fs base k).files = fs.files := by
  intro k
  induction k with
  | zero => intro fs base; rfl
  | succ k ih =>
    intro fs base
    simp only [cleanupLevels]
    rw [ih]
    rfl

theorem cleanupLevels_dirs_subset : ∀ (k : Nat) (fs : FS) (base : Path) (d : Path),
    d ∈ (cleanupLevels fs base k).dirs → d ∈ fs.dirs := by
  intro k
  induction k with
  | zero => intro fs base d hd; exact hd
  | succ k ih =>
    intro fs base d hd
    simp only [cleanupLevels] at hd
    have := ih _ base d hd
    simp only [removeEmptyAt] at this
    exact List.mem_of_mem_filter this

theorem cleanupLevels_deep_mem : ∀ (k : Nat) (fs : FS) (base : Path) (d : Path),
    d ∈ fs.dirs → base.length + k < d.length → d ∈ (cleanupLevels fs base k).dirs := by
  intro k
  induction k with
  | zero => intro fs base d hd _; exact hd
  | succ k ih =>
    intro fs base d hd hlen
    simp only [cleanupLevels]
    refine ih _ base d ?_ (by omega)
    simp only [removeEmptyAt, List.mem_filter]
    refine ⟨hd, ?_⟩
    have hne : d.length ≠ base.length + k + 1 := by omega
    simp [hne]

theorem cleanupLevels_sound : ∀ (k : Nat) (fs : FS) (base : Path),
    ∀ d ∈ (cleanupLevels fs base k).dirs,
      strictUnder base d = true → d.length ≤ base.length + k →
      hasChildEntry (cleanupLevels fs base k) d = true := by
  intro k
  induction k with
  | zero =>
    intro fs base d _ hstrict hlen
    simp only [strictUnder, Bool.and_eq_true, decide_eq_true_eq] at hstrict
    omega
  | succ k ih =>
    intro fs base d hd hstrict hlen
    simp only [cleanupLevels] at hd ⊢
    by_cases hcase : d.length ≤ base.length + k
    · exact ih (removeEmptyAt fs base (base.length + k + 1)) base d hd hstrict hcase
    · have hlenL : d.length = base.length + k + 1 := by omega
      have hd' : d ∈ (removeEmptyAt fs base (base.length + k + 1)).dirs :=
        cleanupLevels_dirs_subset k _ base d hd
      have hchild : hasChildEntry fs d = true := by
        simp only [removeEmptyAt, List.mem_filter, Bool.not_eq_eq_eq_not, Bool.not_true,
          Bool.and_eq_false_iff] at hd'
        rcases hd'.2 with h | h
        · rcases h with h | h
          · rw [hstrict] at h; cases h
          · rw [decide_eq_true hlenL] at h; cases h
        · revert h; cases hasChildEntry fs d <;> simp
      simp only [hasChildEntry, List.any_eq_true, List.mem_append, Bool.and_eq_true,
        decide_eq_true_eq] at hchild ⊢
      obtain ⟨c, hc, hcl, hcp⟩ := hchild
      rcases hc with hc | hc
      · refine ⟨c, Or.inl ?_, hcl, hcp⟩
        rw [cleanupLevels_files]
        simpa [removeEmptyAt] using hc
      · refine ⟨c, Or.inr ?_, hcl, hcp⟩
        have hc1 : c ∈ (removeEmptyAt fs base (base.length + k + 1)).dirs := by
          simp only [removeEmptyAt, List.mem_filter]
          refine ⟨hc, ?_⟩
          have hne : c.length ≠ base.length + k + 1 := by omega
          simp [hne]
        exact cleanupLevels_deep_mem k _ base c hc1 (by omega)

theorem removeEmptyAt_id (fs : FS) (base : Path) (len : Nat)
    (h : ∀ d ∈ fs.dirs, strictUnder base d = true → hasChildEntry fs d = true) :
    removeEmptyAt fs base len = fs := by
  simp only [removeEmptyAt]
  have hfilter : fs.dirs.filter (fun d =>
      !(strictUnder base d && decide (d.length = len) && !(hasChildEntry fs d))) = fs.dirs := by
    rw [List.filter_eq_self]
    intro d hd
    by_cases hs : strictUnder base d = true
    · simp [hs, h d hd hs]
    · have hs' : strictUnder base d = false := by
        revert hs; cases strictUnder base d <;> simp
      simp [hs']
  rw [hfilter]

theorem cleanupLevels_id : ∀ (k : Nat) (fs : FS) (base : Path),
    (∀ d ∈ fs.dirs, strictUnder base d = true → hasChildEntry fs d = true) →
    cleanupLevels fs base k = fs := by
  intro k
  induction k with
  | zero => intro fs base _; rfl
  | succ k ih =>
    intro fs base h
    simp only [cleanupLevels]
    rw [removeEmptyAt_id fs base _ h, ih fs base h]

theorem maxLen_mem : ∀ (l : List Path) (a : Nat),
    a ≤ l.foldl (fun a p => max a p.length) a ∧
    ∀ p ∈ l, p.length ≤ l.foldl (fun a p => max a p.length) a := by
  intro l
  induction l with
  | nil => intro a; exact ⟨Nat.le_refl a, by intro p hp; cases hp⟩
  | cons q rest ih =>
    intro a
    simp only [List.foldl_cons]
    obtain ⟨ih1, ih2⟩ := ih (max a q.length)
    refine ⟨Nat.le_trans (Nat.le_max_left a q.length) ih1, ?_⟩
    intro p hp
    rcases List.mem_cons.mp hp with rfl | hp
    · exact Nat.le_trans (Nat.le_max_right a p.length) ih1
    · exact ih2 p hp

theorem le_maxLen (l : List Path) (p : Path) (hp : p ∈ l) : p.length ≤ maxLen l :=
  (maxLen_mem l 0).2 p hp

theorem cleanup_dir_tree_sound (fs : FS) (base : Path) :
    ∀ d ∈ (cleanup_dir_tree fs base).dirs, strictUnder base d = true →
      hasChildEntry (cleanup_dir_tree fs base) d = true := by
  intro d hd hstrict
  refine cleanupLevels_sound (maxLen fs.dirs) fs base d hd hstrict ?_
  have h1 : d ∈ fs.dirs := cleanupLevels_dirs_subset _ fs base d hd
  have h2 := le_maxLen fs.dirs d h1
  omega

theorem cleanupLevels_removed_empty : ∀ (k : Nat) (fs : FS) (base : Path) (d : Path),
    d ∈ fs.dirs → d ∉ (cleanupLevels fs base k).dirs →
    hasChildEntry (cleanupLevels fs base k) d = false := by
  intro k
  induction k with
  | zero => intro fs base d hd hnd; exact absurd hd hnd
  | succ k ih =>
    intro fs base d hd hnd
    simp only [cleanupLevels] at hnd ⊢
    by_cases h' : d ∈ (removeEmptyAt fs base (base.length + k + 1)).dirs
    · exact ih _ base d h' hnd
    · have hempty : hasChildEntry fs d = false := by
        by_contra hc
        have hc' : hasChildEntry fs d = true := by
          revert hc; cases hasChildEntry fs d <;> simp
        refine h' ?_
        simp only [removeEmptyAt, List.mem_filter]
        exact ⟨hd, by simp [hc']⟩
      by_contra hc
      have hc' : hasChildEntry (cleanupLevels (removeEmptyAt fs base (base.length + k + 1))
          base k) d = true := by
        revert hc; cases hasChildEntry (cleanupLevels _ base k) d <;> simp
      simp only [hasChildEntry, List.any_eq_true, List.mem_append, Bool.and_eq_true,
        decide_eq_true_eq] at hc'
      obtain ⟨c, hcmem, hcl, hcp⟩ := hc'
      have htrue : hasChildEntry fs d = true := by
        simp only [hasChildEntry, List.any_eq_true, List.mem_append, Bool.and_eq_true,
          decide_eq_true_eq]
        rcases hcmem with hcm | hcm
        · rw [cleanupLevels_files] at hcm
          have hcm' : c ∈ fs.files := by simpa [removeEmptyAt] using hcm
          exact ⟨c, Or.inl hcm', hcl, hcp⟩
        · have hcm1 := cleanupLevels_dirs_subset k _ base c hcm
          have hcm2 : c ∈ fs.dirs := by
            simpa [removeEmptyAt] using List.mem_of_mem_filter hcm1
          exact ⟨c, Or.inr hcm2, hcl, hcp⟩
      rw [hempty] at htrue
      cases htrue

/-- C9.  The bottom-up empty-directory cleanup is idempotent: a second run
is the identity (and, the model being total, raises nothing); it never
removes a file, and every directory it removed was empty (it has no child
entry in the resulting tree — entries are never added, so it had none when
removed). -/
theorem claim_C9 (fs : FS) (base : Path) :
    cleanup_dir_tree (cleanup_dir_tree fs base) base = cleanup_dir_tree fs base ∧
    (cleanup_dir_tree fs base).files = fs.files ∧
    (∀ d ∈ fs.dirs, d ∉ (cleanup_dir_tree fs base).dirs →
      hasChildEntry (cleanup_dir_tree fs base) d = false) := by
  refine ⟨?_, cleanupLevels_files _ fs base, ?_⟩
  · exact cleanupLevels_id _ (cleanup_dir_tree fs base) base (cleanup_dir_tree_sound fs base)
  · intro d hd hnd
    exact cleanupLevels_removed_empty _ fs base d hd hnd

/-- Witness for C9: a concrete tree where `d/a` is removed and was empty. -/
theorem claim_C9_witness :
    cleanup_dir_tree (cleanup_dir_tree ⟨[], [["d"], ["d", "a"]]⟩ ["d"]) ["d"]
      = cleanup_dir_tree ⟨[], [["d"], ["d", "a"]]⟩ ["d"] ∧
    (["d", "a"] ∈ (⟨[], [["d"], ["d", "a"]]⟩ : FS).dirs) ∧
    hasChildEntry (cleanup_dir_tree ⟨[], [["d"], ["d", "a"]]⟩ ["d"]) ["d", "a"] = false :=
  ⟨(claim_C9 ⟨[], [["d"], ["d", "a"]]⟩ ["d"]).1,
   by decide,
   (claim_C9 ⟨[], [["d"], ["d", "a"]]⟩ ["d"]).2.2 ["d", "a"] (by decide) (by decide)⟩

/-! ## Round trip: filesystem helpers -/

theorem mkdirParents_files (fs : FS) (d : Path) : (mkdirParents fs d).files = fs.files := rfl

theorem mem_doMove (fs : FS) (src dst q : Path) :
    q ∈ (doMove fs src dst).files ↔ q = dst ∨ (q ∈ fs.files ∧ q ≠ src ∧ q ≠ dst) := by
  simp only [doMove, List.mem_cons, List.mem_filter, Bool.not_eq_eq_eq_not, Bool.not_true,
    Bool.or_eq_false_iff, decide_eq_false_iff_not]

theorem pathExists_false_elim (fs : FS) (p : Path) (h : pathExists fs p = false) :
    p ∉ fs.files ∧ p ∉ fs.dirs := by
  simpa [pathExists] using h

theorem cleanup_empty_dirs_files (cfg : Config) (fs : FS) :
    (cleanup_empty_dirs cfg fs).files = fs.files := by
  simp only [cleanup_empty_dirs]
  split
  · rfl
  · split
    · exact cleanupLevels_files _ fs _
    · rfl

/-! ## Round trip: what one organize step can do to the state -/

theorem organize_file_cases_any (cfg : Config) (rules : Rules) (dateOf : Path → Date)
    (st : OrgState) (f base : Path) (hlog : cfg.create_undo_log = "True") :
    (organize_file cfg rules dateOf st f base false).1 = st ∨
    ∃ d dd, (organize_file cfg rules dateOf st f base false).1 =
      { fs := doMove (mkdirParents st.fs dd) f d
        stats := { st.stats with moved := st.stats.moved + 1 }
        undo_log := st.undo_log ++ [⟨"", f, d, "move"⟩] } := by
  simp only [organize_file]
  split
  · exact Or.inl rfl
  · split
    · exact Or.inl rfl
    · rename_i dest_file hres
      right
      refine ⟨dest_file, generate_destination_path rules dateOf f base, ?_⟩
      simp [hlog]

theorem organize_file_cases_fresh (cfg : Config) (rules : Rules) (dateOf : Path → Date)
    (st : OrgState) (f base : Path) (hlog : cfg.create_undo_log = "True")
    (hpol : cfg.handle_duplicates = "rename" ∨ cfg.handle_duplicates = "skip") :
    (organize_file cfg rules dateOf st f base false).1 = st ∨
    ∃ d dd, pathExists st.fs d = false ∧
      (organize_file cfg rules dateOf st f base false).1 =
        { fs := doMove (mkdirParents st.fs dd) f d
          stats := { st.stats with moved := st.stats.moved + 1 }
          undo_log := st.undo_log ++ [⟨"", f, d, "move"⟩] } := by
  simp only [organize_file]
  split
  · exact Or.inl rfl
  · by_cases hex : pathExists st.fs
        (generate_destination_path rules dateOf f base ++ [fileName f]) = true
    · rcases hpol with hpol | hpol
      · obtain ⟨r, hr, hfr⟩ := handle_duplicate_rename_fresh cfg st.fs
          (generate_destination_path rules dateOf f base ++ [fileName f]) hpol
        rw [if_pos hex, hr]
        right
        exact ⟨r, generate_destination_path rules dateOf f base, hfr, by simp [hlog]⟩
      · rw [if_pos hex, handle_duplicate_skip cfg st.fs _ hpol]
        exact Or.inl rfl
    · have hex' : pathExists st.fs
          (generate_destination_path rules dateOf f base ++ [fileName f]) = false := by
        revert hex
        cases pathExists st.fs (generate_destination_path rules dateOf f base ++ [fileName f]) <;>
          simp
      rw [if_neg (by simp [hex'])]
      right
      exact ⟨generate_destination_path rules dateOf f base ++ [fileName f],
        generate_destination_path rules dateOf f base, hex', by simp [hlog]⟩

theorem organize_file_log_mono (cfg : Config) (rules : Rules) (dateOf : Path → Date)
    (st : OrgState) (f base : Path) (dry : Bool) :
    ∃ Δ, (organize_file cfg rules dateOf st f base dry).1.undo_log = st.undo_log ++ Δ := by
  simp only [organize_file]
  split
  · exact ⟨[], by simp⟩
  · split
    · exact ⟨[], by simp⟩
    · split
      · exact ⟨[], by simp⟩
      · split
        · exact ⟨_, rfl⟩
        · exact ⟨[], by simp⟩

theorem processFiles_log_mono (cfg : Config) (rules : Rules) (dateOf : Path → Date)
    (base : Path) (dry : Bool) :
    ∀ (pend : List Path) (st : OrgState),
      ∃ Δ, (processFiles cfg rules dateOf base dry st pend).1.undo_log
        = st.undo_log ++ Δ := by
  intro pend
  induction pend with
  | nil => intro st; exact ⟨[], by simp [processFiles]⟩
  | cons f rest ih =>
    intro st
    obtain ⟨Δ₁, h₁⟩ := organize_file_log_mono cfg rules dateOf st f base dry
    obtain ⟨Δ₂, h₂⟩ := ih (organize_file cfg rules dateOf st f base dry).1
    refine ⟨Δ₁ ++ Δ₂, ?_⟩
    simp only [processFiles]
    rw [h₂, h₁, List.append_assoc]

/-! ## Round trip: the pass invariant is preserved -/

theorem passInv_step (cfg : Config) (rules : Rules) (dateOf : Path → Date) (base : Path)
    (hlog : cfg.create_undo_log = "True")
    (hpol : cfg.handle_duplicates = "rename" ∨ cfg.handle_duplicates = "skip")
    (st : OrgState) (f : Path) (pend : List Path)
    (hinv : PassInv (f :: pend) st) :
    PassInv pend (organize_file cfg rules dateOf st f base false).1 := by
  obtain ⟨hBD, hPW, hSN, hA, hDP, hSP, hPN, hPF⟩ := hinv
  have hPN' := List.nodup_cons.mp hPN
  rcases organize_file_cases_fresh cfg rules dateOf st f base hlog hpol with
    hsame | ⟨d, dd, hfresh, hst⟩
  · rw [hsame]
    refine ⟨hBD, hPW, hSN, hA, ?_, ?_, hPN'.2, ?_⟩
    · intro op hop p hp; exact hDP op hop p (List.mem_cons_of_mem _ hp)
    · intro op hop p hp; exact hSP op hop p (List.mem_cons_of_mem _ hp)
    · intro p hp; exact hPF p (List.mem_cons_of_mem _ hp)
  · obtain ⟨hdf, hdd⟩ := pathExists_false_elim st.fs d hfresh
    rw [hst]
    have hmemfs : ∀ q, q ∈ (doMove (mkdirParents st.fs dd) f d).files ↔
        q = d ∨ (q ∈ st.fs.files ∧ q ≠ f ∧ q ≠ d) := by
      intro q
      rw [mem_doMove]
      simp [mkdirParents_files]
    refine ⟨?_, ?_, ?_, ?_, ?_, ?_, hPN'.2, ?_⟩
    · -- destinations stay pairwise distinct
      simp only [logDests, List.map_append, List.map_cons, List.map_nil]
      rw [List.nodup_append]
      refine ⟨hBD, List.nodup_singleton d, ?_⟩
      intro q hq hq1
      simp only [List.mem_singleton] at hq1
      simp only [logDests, List.mem_map] at hq
      obtain ⟨op, hop, hopd⟩ := hq
      exact hdf ((hopd.trans hq1) ▸ hA op hop)
    · -- no earlier destination equals a later source
      rw [List.pairwise_append]
      refine ⟨hPW, List.pairwise_singleton _ _, ?_⟩
      intro a ha b hb
      simp only [List.mem_singleton] at hb
      subst hb
      exact hDP a ha f (List.mem_cons_self _ _)
    · -- sources stay pairwise distinct
      simp only [logSources, List.map_append, List.map_cons, List.map_nil]
      rw [List.nodup_append]
      refine ⟨hSN, List.nodup_singleton f, ?_⟩
      intro q hq hq1
      simp only [List.mem_singleton] at hq1
      simp only [logSources, List.mem_map] at hq
      obtain ⟨op, hop, hops⟩ := hq
      exact hSP op hop f (List.mem_cons_self _ _) (hops.trans hq1)
    · -- every logged destination is still a file
      intro op hop
      rcases List.mem_append.mp hop with hop | hop
      · refine (hmemfs op.destination).mpr (Or.inr ⟨hA op hop, ?_, ?_⟩)
        · exact hDP op hop f (List.mem_cons_self _ _)
        · intro hq; exact hdf (hq ▸ hA op hop)
      · simp only [List.mem_singleton] at hop
        subst hop
        exact (hmemfs d).mpr (Or.inl rfl)
    · -- no logged destination is a pending file
      intro op hop p hp
      rcases List.mem_append.mp hop with hop | hop
      · exact hDP op hop p (List.mem_cons_of_mem _ hp)
      · simp only [List.mem_singleton] at hop
        subst hop
        intro hq
        have hq' : d = p := hq
        exact hdf (hq' ▸ hPF p (List.mem_cons_of_mem _ hp))
    · -- no logged source is a pending file
      intro op hop p hp
      rcases List.mem_append.mp hop with hop | hop
      · exact hSP op hop p (List.mem_cons_of_mem _ hp)
      · simp only [List.mem_singleton] at hop
        subst hop
        intro hq
        have hq' : f = p := hq
        exact hPN'.1 (hq' ▸ hp)
    · -- pending files are still present
      intro p hp
      refine (hmemfs p).mpr (Or.inr ⟨hPF p (List.mem_cons_of_mem _ hp), ?_, ?_⟩)
      · intro hq; exact hPN'.1 (hq ▸ hp)
      · intro hq; exact hdf (hq ▸ hPF p (List.mem_cons_of_mem _ hp))

theorem processFiles_inv (cfg : Config) (rules : Rules) (dateOf : Path → Date) (base : Path)
    (hlog : cfg.create_undo_log = "True")
    (hpol : cfg.handle_duplicates = "rename" ∨ cfg.handle_duplicates = "skip") :
    ∀ (pend : List Path) (st : OrgState),
      PassInv pend st → PassInv [] (processFiles cfg rules dateOf base false st pend).1 := by
  intro pend
  induction pend with
  | nil => intro st h; exact h
  | cons f rest ih =>
    intro st h
    simp only [processFiles]
    exact ih _ (passInv_step cfg rules dateOf base hlog hpol st f rest h)

theorem processFiles_ow (cfg : Config) (rules : Rules) (dateOf : Path → Date) (base : Path)
    (hlog : cfg.create_undo_log = "True") :
    ∀ (pend : List Path) (st : OrgState),
      OwInv st →
      (processFiles cfg rules dateOf base false st pend).1.undo_log.length ≤ 1 →
      OwInv (processFiles cfg rules dateOf base false st pend).1 := by
  intro pend
  induction pend with
  | nil => intro st h _; exact h
  | cons f rest ih =>
    intro st h hlen
    simp only [processFiles] at hlen ⊢
    rcases organize_file_cases_any cfg rules dateOf st f base hlog with hsame | ⟨d, dd, hst⟩
    · refine ih _ ?_ hlen
      rw [hsame]
      exact h
    · rcases h with hnil | ⟨op, hop, _⟩
      · refine ih _ ?_ hlen
        right
        refine ⟨⟨"", f, d, "move"⟩, ?_, ?_⟩
        · rw [hst, hnil]; rfl
        · rw [hst]
          exact (mem_doMove _ f d d).mpr (Or.inl rfl)
      · exfalso
        obtain ⟨Δ, hΔ⟩ := processFiles_log_mono cfg rules dateOf base false rest
          (organize_file cfg rules dateOf st f base false).1
        rw [hΔ, hst] at hlen
        simp only [hop, List.length_append, List.length_cons, List.length_singleton] at hlen
        omega

/-! ## Round trip: replaying the log restores each source -/

theorem runUndo_preserve : ∀ (u : List UndoOp) (fs : FS) (p : Path),
    p ∈ fs.files → (∀ op ∈ u, ∀ d : Path, op.destination = some d → p ≠ d) →
    p ∈ (runUndoOps fs u).1.files := by
  intro u
  induction u with
  | nil => intro fs p hp _; exact hp
  | cons op rest ih =>
    intro fs p hp hnd
    simp only [runUndoOps]
    refine ih _ p ?_ (fun o ho => hnd o (List.mem_cons_of_mem _ ho))
    rcases hs : op.source with _ | src <;> rcases hd : op.destination with _ | dst <;>
      simp only [undoStep, hs, hd]
    · exact hp
    · exact hp
    · exact hp
    · split
      · rw [mem_doMove]
        by_cases hps : p = src
        · exact Or.inl hps
        · exact Or.inr ⟨hp, hnd op (List.mem_cons_self _ _) dst hd, hps⟩
      · exact hp

theorem runUndo_restores : ∀ (l : List MoveOp) (fs : FS),
    ((l.map (·.destination)).Nodup) →
    (List.Pairwise (fun a b => b.destination ≠ a.source) l) →
    ((l.map (·.source)).Nodup) →
    (∀ op ∈ l, op.destination ∈ fs.files) →
    ∀ op ∈ l, op.source ∈ (runUndoOps fs (l.map MoveOp.toUndo)).1.files := by
  intro l
  induction l with
  | nil => intro fs _ _ _ _ op hop; cases hop
  | cons a l ih =>
    intro fs hBD hPW hSN hA op hop
    have hBDc : (a.destination :: l.map (·.destination)).Nodup := by
      rw [List.map_cons] at hBD; exact hBD
    have hSNc : (a.source :: l.map (·.source)).Nodup := by
      rw [List.map_cons] at hSN; exact hSN
    have hBD' := List.nodup_cons.mp hBDc
    have hSN' := List.nodup_cons.mp hSNc
    have hPW' := List.pairwise_cons.mp hPW
    have hamem : a.destination ∈ fs.files := hA a (List.mem_cons_self _ _)
    have hex : pathExists fs a.destination = true := by
      simp [pathExists, hamem]
    have hstep : (runUndoOps fs ((a :: l).map MoveOp.toUndo)).1 =
        (runUndoOps (doMove (mkdirParents fs a.source.dropLast) a.destination a.source)
          (l.map MoveOp.toUndo)).1 := by
      simp only [List.map_cons, runUndoOps, undoStep, MoveOp.toUndo, hex, if_true]
    rw [hstep]
    have hA' : ∀ op ∈ l, op.destination ∈
        (doMove (mkdirParents fs a.source.dropLast) a.destination a.source).files := by
      intro o ho
      rw [mem_doMove]
      simp only [mkdirParents_files]
      refine Or.inr ⟨hA o (List.mem_cons_of_mem _ ho), ?_, ?_⟩
      · intro hq
        exact hBD'.1 (by
          rw [← hq]
          exact List.mem_map.mpr ⟨o, ho, rfl⟩)
      · exact hPW'.1 o ho
    rcases List.mem_cons.mp hop with rfl | hop
    · refine runUndo_preserve (l.map MoveOp.toUndo) _ op.source ?_ ?_
      · rw [mem_doMove]
        exact Or.inl rfl
      · intro u hu d hd
        obtain ⟨b, hb, rfl⟩ := List.mem_map.mp hu
        simp only [MoveOp.toUndo, Option.some.injEq] at hd
        intro hq
        exact hPW'.1 b hb (by rw [hd, ← hq])
    · exact ih _ hBD'.2 hPW'.2 hSN'.2 hA' op hop

theorem pass_facts (cfg : Config) (rules : Rules) (dateOf : Path → Date)
    (fs0 : FS) (src dst : Path)
    (hlog : cfg.create_undo_log = "True")
    (hwf : fs0.files.Nodup)
    (hpol : cfg.handle_duplicates = "rename" ∨ cfg.handle_duplicates = "skip" ∨
      (cfg.handle_duplicates = "overwrite" ∧
        (runPass cfg rules dateOf fs0 src dst).undo_log.length ≤ 1)) :
    (logDests (runPass cfg rules dateOf fs0 src dst).undo_log).Nodup ∧
    List.Pairwise (fun a b => a.destination ≠ b.source)
      (runPass cfg rules dateOf fs0 src dst).undo_log ∧
    (logSources (runPass cfg rules dateOf fs0 src dst).undo_log).Nodup ∧
    (∀ op ∈ (runPass cfg rules dateOf fs0 src dst).undo_log,
      op.destination ∈ (runPass cfg rules dateOf fs0 src dst).fs.files) := by
  have hpass : runPass cfg rules dateOf fs0 src dst = ⟨fs0, ⟨0, 0⟩, []⟩ ∨
      runPass cfg rules dateOf fs0 src dst =
        (processFiles cfg rules dateOf dst false ⟨fs0, ⟨0, 0⟩, []⟩
          (walkFiles fs0 src)).1 := by
    simp only [runPass, organize_folder]
    split
    · exact Or.inl rfl
    · exact Or.inr rfl
  have hinv0 : PassInv (walkFiles fs0 src) ⟨fs0, ⟨0, 0⟩, []⟩ := by
    refine ⟨List.nodup_nil, List.Pairwise.nil, List.nodup_nil, ?_, ?_, ?_, ?_, ?_⟩
    · intro op hop; cases hop
    · intro op hop; cases hop
    · intro op hop; cases hop
    · exact List.Nodup.filter _ hwf
    · intro p hp; exact List.mem_of_mem_filter hp
  rcases hpass with hpass | hpass
  · rw [hpass]
    exact ⟨List.nodup_nil, List.Pairwise.nil, List.nodup_nil, fun op hop => absurd hop
      (by simp)⟩
  · rcases hpol with hpol | hpol | ⟨hpol, hlen⟩
    · have := processFiles_inv cfg rules dateOf dst hlog (Or.inl hpol)
        (walkFiles fs0 src) ⟨fs0, ⟨0, 0⟩, []⟩ hinv0
      rw [hpass]
      exact ⟨this.1, this.2.1, this.2.2.1, this.2.2.2.1⟩
    · have := processFiles_inv cfg rules dateOf dst hlog (Or.inr hpol)
        (walkFiles fs0 src) ⟨fs0, ⟨0, 0⟩, []⟩ hinv0
      rw [hpass]
      exact ⟨this.1, this.2.1, this.2.2.1, this.2.2.2.1⟩
    · rw [hpass] at hlen
      have how := processFiles_ow cfg rules dateOf dst hlog (walkFiles fs0 src)
        ⟨fs0, ⟨0, 0⟩, []⟩ (Or.inl rfl) hlen
      rw [hpass]
      rcases how with hnil | ⟨op, hone, hmem⟩
      · rw [hnil]
        exact ⟨List.nodup_nil, List.Pairwise.nil, List.nodup_nil, fun op hop => absurd hop
          (by simp)⟩
      · rw [hone]
        refine ⟨List.nodup_singleton _, List.pairwise_singleton _ _,
          List.nodup_singleton _, ?_⟩
        intro o ho
        simp only [List.mem_singleton] at ho
        subst ho
        exact hmem

/-- C1 (amended).  For every file that a non-dry-run organize pass (with
undo-log creation enabled, over a duplicate-free filesystem) successfully
moves, undoing with the log generated by that pass puts a file back at
exactly the original absolute source path.  This holds unconditionally
under the `rename` and `skip` policies; under `overwrite` it holds whenever
the pass logs at most one move (a later move of the same pass can overwrite
or capture the file's destination — see the counterexample). -/
theorem claim_C1 (cfg : Config) (rules : Rules) (dateOf : Path → Date)
    (fs0 : FS) (src dst : Path)
    (hlog : cfg.create_undo_log = "True")
    (hwf : fs0.files.Nodup)
    (hpol : cfg.handle_duplicates = "rename" ∨ cfg.handle_duplicates = "skip" ∨
      (cfg.handle_duplicates = "overwrite" ∧
        (runPass cfg rules dateOf fs0 src dst).undo_log.length ≤ 1)) :
    ∀ op ∈ (runPass cfg rules dateOf fs0 src dst).undo_log,
      op.source ∈ (undoRun cfg (runPass cfg rules dateOf fs0 src dst)).1.files := by
  obtain ⟨hB, hC, hS, hA⟩ := pass_facts cfg rules dateOf fs0 src dst hlog hwf hpol
  intro op hop
  have hne : (runPass cfg rules dateOf fs0 src dst).undo_log ≠ [] := by
    intro h; rw [h] at hop; cases hop
  have hemp : ((runPass cfg rules dateOf fs0 src dst).undo_log.map MoveOp.toUndo).isEmpty
      = false := by
    cases hul : (runPass cfg rules dateOf fs0 src dst).undo_log with
    | nil => exact absurd hul hne
    | cons a l => rfl
  have hundo : (undoRun cfg (runPass cfg rules dateOf fs0 src dst)).1 =
      cleanup_empty_dirs cfg
        (runUndoOps (runPass cfg rules dateOf fs0 src dst).fs
          (((runPass cfg rules dateOf fs0 src dst).undo_log.map MoveOp.toUndo).reverse)).1 := by
    simp [undoRun, undo_organization, hemp]
  rw [hundo, cleanup_empty_dirs_files]
  have hrev : ((runPass cfg rules dateOf fs0 src dst).undo_log.map MoveOp.toUndo).reverse
      = ((runPass cfg rules dateOf fs0 src dst).undo_log.reverse.map MoveOp.toUndo) := by
    rw [List.map_reverse]
  rw [hrev]
  refine runUndo_restores (runPass cfg rules dateOf fs0 src dst).undo_log.reverse
    (runPass cfg rules dateOf fs0 src dst).fs ?_ ?_ ?_ ?_ op
    (List.mem_reverse.mpr hop)
  · rw [show ((runPass cfg rules dateOf fs0 src dst).undo_log.reverse.map (·.destination))
        = (logDests (runPass cfg rules dateOf fs0 src dst).undo_log).reverse by
      simp [logDests, List.map_reverse]]
    exact List.nodup_reverse.mpr hB
  · exact List.pairwise_reverse.mpr hC
  · rw [show ((runPass cfg rules dateOf fs0 src dst).undo_log.reverse.map (·.source))
        = (logSources (runPass cfg rules dateOf fs0 src dst).undo_log).reverse by
      simp [logSources, List.map_reverse]]
    exact List.nodup_reverse.mpr hS
  · intro o ho
    exact hA o (List.mem_reverse.mp ho)

/-- C1 counterexample to the claim as stated: under the `overwrite` policy
a pass over two files that both resolve to `d/Audio/a.mp3` logs two moves,
and after undoing with that log the first file's original path
`s/x/a.mp3` holds no file at all — the round trip fails. -/
theorem claim_C1_cex :
    cfgOver.handle_duplicates = "overwrite" ∧
    ((⟨"", ["s", "x", "a.mp3"], ["d", "Audio", "a.mp3"], "move"⟩ : MoveOp)
      ∈ (runPass cfgOver rulesAudio dateW fsTwoMp3 ["s"] ["d"]).undo_log) ∧
    ["s", "x", "a.mp3"]
      ∉ (undoRun cfgOver (runPass cfgOver rulesAudio dateW fsTwoMp3 ["s"] ["d"])).1.files := by
  refine ⟨rfl, by decide, by decide⟩

/-- Witness for C1: a single-file pass under the `rename` policy, undone. -/
theorem claim_C1_witness :
    cfgRen.create_undo_log = "True" ∧
    fsOneMp3.files.Nodup ∧
    (∀ op ∈ (runPass cfgRen rulesAudio dateW fsOneMp3 ["s"] ["d"]).undo_log,
      op.source ∈ (undoRun cfgRen (runPass cfgRen rulesAudio dateW fsOneMp3 ["s"] ["d"])).1.files) :=
  ⟨rfl, by decide,
   claim_C1 cfgRen rulesAudio dateW fsOneMp3 ["s"] ["d"] rfl (by decide) (Or.inl rfl)⟩

end FileOrg
